import Mathlib

/-
Shallow embedding of src/text_app.py (corruption engine and complexity
estimator).

Modelling conventions:
* A Python string is a `List Char` (an immutable sequence of code points).
* The floating-point arithmetic of the derivation stage is embedded in `ℚ`
  (exact rational arithmetic at the formulas' level).
* `zlib`-based `compress_size` is an abstract size oracle
  `csize : List Char → ℕ`: the estimator is parametric in it, as the spec
  allows any deflate-family compressor.
* The process-global random source is an explicit parameter: a `RandSrc`
  records, for one corruption call, the index sample that `random.sample`
  returns and the successive characters that `random.choice` returns.
  The guarantees of `random.sample` (distinct in-range indices of the
  requested size) and of `random.choice(string.printable)` (results lie in
  `string.printable`) are the predicates `RandSrc.SampOK` / `RandSrc.ChoiceOK`.
* Fallible Python code (raising exceptions) is embedded in `Option`:
  `none` is an uncaught exception propagating to the caller.
-/

/-- Code points of Python `string.printable`, in order: `string.digits`,
`string.ascii_lowercase`, `string.ascii_uppercase`, `string.punctuation`
(codes 33-47, 58-64, 91-96, 123-126) and `string.whitespace`
(space, tab, newline, carriage return, vertical tab, form feed). -/
def printableCodes : List ℕ :=
  (List.range 10).map (· + 48) ++
  (List.range 26).map (· + 97) ++
  (List.range 26).map (· + 65) ++
  (List.range 15).map (· + 33) ++
  (List.range 7).map (· + 58) ++
  (List.range 6).map (· + 91) ++
  (List.range 4).map (· + 123) ++
  [32, 9, 10, 13, 11, 12]

/-- Python `string.printable` as a list of characters: the population that
`random.choice(string.printable)` draws from in `corrupt_text`. -/
def stringPrintable : List Char := printableCodes.map Char.ofNat

/-- One corruption call's worth of randomness: `samp n k` is the list that
`random.sample(range(n), k)` returns, and `choice j` is the result of the
`j`-th call to `random.choice(string.printable)` within the call. -/
structure RandSrc where
  samp : ℕ → ℕ → List ℕ
  choice : ℕ → Char

/-- Contract of `random.sample(range(n), k)` for `k ≤ n`: `k` distinct
indices, all below `n`. -/
def sampValid (f : ℕ → ℕ → List ℕ) : Prop :=
  ∀ n k, k ≤ n → (f n k).length = k ∧ (f n k).Nodup ∧ ∀ i ∈ f n k, i < n

/-- A random source whose `random.sample` component honours its contract. -/
def RandSrc.SampOK (r : RandSrc) : Prop := sampValid r.samp

/-- Contract of `random.choice(string.printable)`: every drawn character is
a member of `string.printable`. -/
def RandSrc.ChoiceOK (r : RandSrc) : Prop := ∀ j, r.choice j ∈ stringPrintable

/-- The replacement loop of `corrupt_text`:
`for idx in indices: chars[idx] = random.choice(string.printable)`,
with `j` the running draw counter. -/
def applyRepl (choice : ℕ → Char) : ℕ → List ℕ → List Char → List Char
  | _, [], cs => cs
  | j, idx :: rest, cs => applyRepl choice (j + 1) rest (cs.set idx (choice j))

/-- `corrupt_text(text, num_corrupt)` (src/text_app.py lines 12-17).
`random.sample(range(len(text)), num_corrupt)` raises `ValueError` exactly
when the requested sample exceeds the population, i.e. when
`num_corrupt > len(text)` (a negative count, which also raises, is not
representable with `num_corrupt : ℕ`); the raise is the `none` branch. -/
def corruptText (r : RandSrc) (text : List Char) (num_corrupt : ℕ) :
    Option (List Char) :=
  if num_corrupt ≤ text.length then
    some (applyRepl r.choice 0 (r.samp text.length num_corrupt) text)
  else
    none

/-- `np.mean` of a list of sizes, as exact rationals. (For an empty list
`np.mean` returns NaN; in `ℚ` the expression `0 / 0` evaluates to `0`; the
estimator only takes means of nonempty lists when `trials ≥ 1`.) -/
def npMean (xs : List ℚ) : ℚ := xs.sum / xs.length

/-- `np.linspace(0.0, 1.0, steps)` at exact-rational level:
`step_fracs[i] = i / (steps - 1)`. For `steps = 1` numpy returns `[0.0]`
and the formula gives `0 / 0 = 0` in `ℚ`, matching; for `steps = 0` both
give the empty list. -/
def stepFracs (steps : ℕ) : List ℚ :=
  (List.range steps).map (fun i : ℕ => (i : ℚ) / ((steps : ℚ) - 1))

/-- The inner trials loop of `estimate_text_complexity`:
`sizes = []; for _ in range(trials): sizes.append(compress_size(corrupt_text(text, corrupt)))`.
`r t` is the randomness the `t`-th trial consumes. -/
def corruptSizes (r : ℕ → RandSrc) (csize : List Char → ℕ) (text : List Char)
    (num_corrupt : ℕ) : ℕ → Option (List ℚ)
  | 0 => some []
  | t + 1 =>
    match corruptSizes r csize text num_corrupt t, corruptText (r t) text num_corrupt with
    | some prev, some s => some (prev ++ [(csize s : ℚ)])
    | _, _ => none

/-- The outer loop of `estimate_text_complexity` over `step_fracs`:
`keep = int(frac * n)` (truncation = floor for nonnegative values),
`corrupt = n - keep`, then the mean of the trial sizes is appended. `i` is
the running step index, used only to address the randomness stream. -/
def measureV (rand : ℕ → ℕ → RandSrc) (csize : List Char → ℕ) (text : List Char)
    (trials : ℕ) : ℕ → List ℚ → Option (List ℚ)
  | _, [] => some []
  | i, frac :: rest =>
    match corruptSizes (rand i) csize text
            (text.length - ⌊frac * (text.length : ℚ)⌋.toNat) trials,
          measureV rand csize text trials (i + 1) rest with
    | some sizes, some vrest => some (npMean sizes :: vrest)
    | _, _ => none

/-- Result record of `estimate_text_complexity`: the tuple
`(V, V0, VN, A, B, EF, AC, SS, C, C_norm)` it returns. -/
structure EstimateResult where
  V : List ℚ
  V0 : ℚ
  VN : ℚ
  A : ℚ
  B : ℚ
  EF : ℚ
  AC : ℚ
  SS : ℚ
  C : ℚ
  C_norm : ℚ
  deriving Repr, DecidableEq

/-- The derivation stage of `estimate_text_complexity`
(src/text_app.py lines 33-43), applied to a nonempty measurement vector:
`V0 = V[0]`, `VN = V[-1]`, `N = steps - 1`,
`A = -(N+1)*VN + V.sum()`, `B = -V.sum() + (N+1)*V0`,
`EF = A / B if B != 0 else 0`, `AC = VN`,
`SS = (V0 - VN) / V0 if V0 != 0 else 0`, `C = EF * AC * SS`,
`C_norm = C / V0 if V0 != 0 else 0`. -/
def deriveScalars (V : List ℚ) (steps : ℕ) : EstimateResult :=
  let V0 := V.headI
  let VN := V.getLastD 0
  let N : ℚ := (steps : ℚ) - 1
  let A := -(N + 1) * VN + V.sum
  let B := -V.sum + (N + 1) * V0
  let EF := if B ≠ 0 then A / B else 0
  let AC := VN
  let SS := if V0 ≠ 0 then (V0 - VN) / V0 else 0
  let C := EF * AC * SS
  let C_norm := if V0 ≠ 0 then C / V0 else 0
  ⟨V, V0, VN, A, B, EF, AC, SS, C, C_norm⟩

/-- `estimate_text_complexity(text, steps, trials)` (src/text_app.py
lines 19-43). An exception anywhere (from `corrupt_text`, or the
`IndexError` of `V[0]` when `steps = 0` makes `V` empty) is `none`. -/
def estimateTextComplexity (rand : ℕ → ℕ → RandSrc) (csize : List Char → ℕ)
    (text : List Char) (steps trials : ℕ) : Option EstimateResult :=
  match measureV rand csize text trials 0 (stepFracs steps) with
  | none => none
  | some V => if V = [] then none else some (deriveScalars V steps)

/-- Stated from the spec's words (the claimed Variant A derivation), for
comparison with `deriveScalars`: `V0 = V[0]`, `VN = V[last]`,
`N = steps - 1`, `A = -(N+1)·VN + sum(V)`, `B = -sum(V) + (N+1)·V0`,
`EF = A/B` (0 if `B == 0`), `AC = VN`, `SS = (V0-VN)/V0` (0 if `V0 == 0`),
`C = EF · VN · ((V0-VN)/V0)` (0 if `V0 == 0`), `C_norm = C / V0`
(0 if `V0 == 0`). -/
def variantASpec (V : List ℚ) (steps : ℕ) : EstimateResult :=
  let V0 := V.headI
  let VN := V.getLastD 0
  let N : ℚ := (steps : ℚ) - 1
  let A := -(N + 1) * VN + V.sum
  let B := -V.sum + (N + 1) * V0
  let EF := if B = 0 then 0 else A / B
  let AC := VN
  let SS := if V0 = 0 then 0 else (V0 - VN) / V0
  let C := if V0 = 0 then 0 else EF * VN * ((V0 - VN) / V0)
  let C_norm := if V0 = 0 then 0 else C / V0
  ⟨V, V0, VN, A, B, EF, AC, SS, C, C_norm⟩

-- Concrete random sources and oracle used in witnesses and counterexamples.

/-- A concrete `random.sample` model: sample of size `k` from `range n` is
`[0, 1, ..., k-1]` (valid whenever `k ≤ n`). -/
def rangeSamp : ℕ → ℕ → List ℕ := fun _ k => List.range k

/-- Concrete source whose `random.choice` always yields letter a. -/
def rangeRand : RandSrc := ⟨rangeSamp, fun _ => Char.ofNat 97⟩

/-- Concrete source whose `random.choice` always yields the newline
character, code 10 (a member of `string.printable`). -/
def newlineRand : RandSrc := ⟨rangeSamp, fun _ => Char.ofNat 10⟩

/-- Concrete per-call randomness stream: every corruption call uses
`rangeRand`. -/
def constRand : ℕ → ℕ → RandSrc := fun _ _ => rangeRand

/-- Concrete compression-size oracle for witnesses: the identity-like
length oracle (any `csize` is admissible, the estimator being parametric
in it). -/
def lenOracle : List Char → ℕ := fun s => s.length

/-- Concrete three-character text abc used in witnesses. -/
def txtABC : List Char := [Char.ofNat 97, Char.ofNat 98, Char.ofNat 99]

/-- Closed form of one step mean of the estimator when nothing fails:
the mean over `trials` trials of the oracle sizes of the corrupted texts at
fraction `frac`, the `i`-th step of the sweep. -/
def meanAt (rand : ℕ → ℕ → RandSrc) (csize : List Char → ℕ) (text : List Char)
    (trials i : ℕ) (frac : ℚ) : ℚ :=
  npMean ((List.range trials).map (fun t =>
    (csize (applyRepl (rand i t).choice 0
      ((rand i t).samp text.length
        (text.length - ⌊frac * (text.length : ℚ)⌋.toNat))
      text) : ℚ)))

/-- Closed form of the whole measurement vector when nothing fails. -/
def mvList (rand : ℕ → ℕ → RandSrc) (csize : List Char → ℕ) (text : List Char)
    (trials : ℕ) : ℕ → List ℚ → List ℚ
  | _, [] => []
  | i, frac :: rest =>
    meanAt rand csize text trials i frac :: mvList rand csize text trials (i + 1) rest

lemma applyRepl_length (choice : ℕ → Char) :
    ∀ (idxs : List ℕ) (j : ℕ) (cs : List Char),
      (applyRepl choice j idxs cs).length = cs.length := by
  intro idxs
  induction idxs with
  | nil => intro j cs; rfl
  | cons idx rest ih =>
    intro j cs
    rw [applyRepl, ih, List.length_set]

lemma applyRepl_getElem?_of_not_mem (choice : ℕ → Char) {p : ℕ} :
    ∀ (idxs : List ℕ), p ∉ idxs → ∀ (j : ℕ) (cs : List Char),
      (applyRepl choice j idxs cs)[p]? = cs[p]? := by
  intro idxs
  induction idxs with
  | nil => intro _ j cs; rfl
  | cons idx rest ih =>
    intro hp j cs
    have hne : idx ≠ p := fun h => hp (h ▸ List.mem_cons_self idx rest)
    have hrest : p ∉ rest := fun h => hp (List.mem_cons_of_mem idx h)
    rw [applyRepl, ih hrest, List.getElem?_set_ne hne]

lemma applyRepl_getElem?_of_mem (choice : ℕ → Char) {p : ℕ} :
    ∀ (idxs : List ℕ), p ∈ idxs → ∀ (j : ℕ) (cs : List Char), p < cs.length →
      ∃ m, (applyRepl choice j idxs cs)[p]? = some (choice m) := by
  intro idxs
  induction idxs with
  | nil => intro h; exact absurd h (List.not_mem_nil p)
  | cons idx rest ih =>
    intro hp j cs hlen
    by_cases hrest : p ∈ rest
    · obtain ⟨m, hm⟩ := ih hrest (j + 1) (cs.set idx (choice j))
        (by rw [List.length_set]; exact hlen)
      exact ⟨m, by rw [applyRepl]; exact hm⟩
    · have hpidx : p = idx := by
        rcases List.mem_cons.mp hp with h | h
        · exact h
        · exact absurd h hrest
      refine ⟨j, ?_⟩
      rw [applyRepl, applyRepl_getElem?_of_not_mem choice rest hrest, hpidx,
        List.getElem?_set_eq_of_lt _ (hpidx ▸ hlen)]

lemma corruptText_eq_some (r : RandSrc) (text : List Char) (k : ℕ)
    (hk : k ≤ text.length) :
    corruptText r text k = some (applyRepl r.choice 0 (r.samp text.length k) text) := by
  rw [corruptText, if_pos hk]

lemma corruptSizes_eq_some (r : ℕ → RandSrc) (csize : List Char → ℕ)
    (text : List Char) (k : ℕ) (hk : k ≤ text.length) :
    ∀ m : ℕ, corruptSizes r csize text k m =
      some ((List.range m).map (fun t =>
        (csize (applyRepl (r t).choice 0 ((r t).samp text.length k) text) : ℚ))) := by
  intro m
  induction m with
  | zero => rfl
  | succ t ih =>
    rw [corruptSizes, ih, corruptText_eq_some (r t) text k hk, List.range_succ,
      List.map_append]
    rfl

lemma measureV_eq_some (rand : ℕ → ℕ → RandSrc) (csize : List Char → ℕ)
    (text : List Char) (trials : ℕ) :
    ∀ (fracs : List ℚ) (i : ℕ),
      measureV rand csize text trials i fracs =
        some (mvList rand csize text trials i fracs) := by
  intro fracs
  induction fracs with
  | nil => intro i; rfl
  | cons frac rest ih =>
    intro i
    rw [measureV,
      corruptSizes_eq_some (rand i) csize text _ (Nat.sub_le _ _) trials,
      ih (i + 1)]
    rfl

lemma mvList_length (rand : ℕ → ℕ → RandSrc) (csize : List Char → ℕ)
    (text : List Char) (trials : ℕ) :
    ∀ (fracs : List ℚ) (i : ℕ),
      (mvList rand csize text trials i fracs).length = fracs.length := by
  intro fracs
  induction fracs with
  | nil => intro i; rfl
  | cons frac rest ih =>
    intro i
    rw [mvList, List.length_cons, ih (i + 1), List.length_cons]

lemma mvList_concat (rand : ℕ → ℕ → RandSrc) (csize : List Char → ℕ)
    (text : List Char) (trials : ℕ) (a : ℚ) :
    ∀ (fracs : List ℚ) (i : ℕ),
      mvList rand csize text trials i (fracs ++ [a]) =
        mvList rand csize text trials i fracs ++
          [meanAt rand csize text trials (i + fracs.length) a] := by
  intro fracs
  induction fracs with
  | nil => intro i; rfl
  | cons frac rest ih =>
    intro i
    rw [List.cons_append, mvList, ih (i + 1), mvList]
    simp [List.length_cons, Nat.add_comm, Nat.add_assoc, Nat.add_left_comm]

lemma stepFracs_length (steps : ℕ) : (stepFracs steps).length = steps := by
  rw [stepFracs, List.length_map, List.length_range]

lemma estimate_eq_mvList (rand : ℕ → ℕ → RandSrc) (csize : List Char → ℕ)
    (text : List Char) (steps trials : ℕ) (h : 1 ≤ steps) :
    estimateTextComplexity rand csize text steps trials =
      some (deriveScalars (mvList rand csize text trials 0 (stepFracs steps)) steps) := by
  have hne : mvList rand csize text trials 0 (stepFracs steps) ≠ [] := by
    intro he
    have hl := mvList_length rand csize text trials (stepFracs steps) 0
    rw [he, stepFracs_length] at hl
    exact absurd hl.symm (Nat.pos_iff_ne_zero.mp h)
  rw [estimateTextComplexity, measureV_eq_some rand csize text trials (stepFracs steps) 0]
  simp only [if_neg hne]

lemma stepFracs_mem_nonneg {steps : ℕ} {frac : ℚ} (h : frac ∈ stepFracs steps) :
    0 ≤ frac := by
  rw [stepFracs, List.mem_map] at h
  obtain ⟨i, hi, rfl⟩ := h
  have hi' : i < steps := List.mem_range.mp hi
  have h1 : (1 : ℚ) ≤ (steps : ℚ) := by
    have h2 : 1 ≤ steps := Nat.one_le_of_lt (Nat.lt_of_le_of_lt (Nat.zero_le i) hi')
    exact_mod_cast h2
  exact div_nonneg (Nat.cast_nonneg i) (by linarith)

lemma stepFracs_mem_le_one {steps : ℕ} {frac : ℚ} (h : frac ∈ stepFracs steps) :
    frac ≤ 1 := by
  rw [stepFracs, List.mem_map] at h
  obtain ⟨i, hi, rfl⟩ := h
  have hi' : i < steps := List.mem_range.mp hi
  have h1 : 1 ≤ steps := Nat.one_le_of_lt (Nat.lt_of_le_of_lt (Nat.zero_le i) hi')
  rcases eq_or_lt_of_le h1 with heq | hlt2
  · have hi0 : i = 0 := Nat.lt_one_iff.mp (heq ▸ hi')
    subst hi0
    rw [← heq]
    norm_num
  · have hd : (0 : ℚ) < (steps : ℚ) - 1 := by
      have h2 : (2 : ℚ) ≤ (steps : ℚ) := by exact_mod_cast hlt2
      linarith
    rw [div_le_one hd]
    have hle : i ≤ steps - 1 := Nat.le_pred_of_lt hi'
    have hle' := (Nat.cast_le (α := ℚ)).mpr hle
    rwa [Nat.cast_sub h1] at hle'

lemma deriveScalars_eq_variantASpec (V : List ℚ) (steps : ℕ) :
    deriveScalars V steps = variantASpec V steps := by
  rw [deriveScalars, variantASpec]
  by_cases h0 : V.headI = 0 <;>
    by_cases hB : -V.sum + ((steps : ℚ) - 1 + 1) * V.headI = 0 <;>
    simp [h0, hB]

lemma rangeSamp_valid : sampValid rangeSamp := by
  intro n k hk
  refine ⟨?_, ?_, ?_⟩
  · simp [rangeSamp]
  · simp [rangeSamp, List.nodup_range]
  · intro i hi
    simp only [rangeSamp, List.mem_range] at hi
    exact Nat.lt_of_lt_of_le hi hk

lemma rangeRand_sampOK : rangeRand.SampOK := rangeSamp_valid

lemma newlineRand_sampOK : newlineRand.SampOK := rangeSamp_valid

lemma constRand_sampOK : ∀ i t, (constRand i t).SampOK := fun _ _ => rangeSamp_valid

lemma newlineRand_choiceOK : newlineRand.ChoiceOK := by
  intro j
  show Char.ofNat 10 ∈ stringPrintable
  decide

lemma rangeRand_choiceOK : rangeRand.ChoiceOK := by
  intro j
  show Char.ofNat 97 ∈ stringPrintable
  decide

lemma deriveScalars_EF (V : List ℚ) (steps : ℕ) :
    (deriveScalars V steps).EF =
      if (deriveScalars V steps).B ≠ 0 then
        (deriveScalars V steps).A / (deriveScalars V steps).B
      else 0 := rfl

lemma deriveScalars_SS (V : List ℚ) (steps : ℕ) :
    (deriveScalars V steps).SS =
      if (deriveScalars V steps).V0 ≠ 0 then
        ((deriveScalars V steps).V0 - (deriveScalars V steps).VN) /
          (deriveScalars V steps).V0
      else 0 := rfl

lemma deriveScalars_C (V : List ℚ) (steps : ℕ) :
    (deriveScalars V steps).C =
      (deriveScalars V steps).EF * (deriveScalars V steps).AC *
        (deriveScalars V steps).SS := rfl

lemma deriveScalars_C_norm (V : List ℚ) (steps : ℕ) :
    (deriveScalars V steps).C_norm =
      if (deriveScalars V steps).V0 ≠ 0 then
        (deriveScalars V steps).C / (deriveScalars V steps).V0
      else 0 := rfl

lemma deriveScalars_degenerate (V : List ℚ) (steps : ℕ) :
    ((deriveScalars V steps).B = 0 → (deriveScalars V steps).EF = 0) ∧
    ((deriveScalars V steps).V0 = 0 →
      (deriveScalars V steps).SS = 0 ∧ (deriveScalars V steps).C = 0 ∧
        (deriveScalars V steps).C_norm = 0) := by
  constructor
  · intro hB
    rw [deriveScalars_EF, if_neg (not_not_intro hB)]
  · intro h0
    have hSS : (deriveScalars V steps).SS = 0 := by
      rw [deriveScalars_SS, if_neg (not_not_intro h0)]
    have hC : (deriveScalars V steps).C = 0 := by
      rw [deriveScalars_C, hSS, mul_zero]
    exact ⟨hSS, hC, by rw [deriveScalars_C_norm, if_neg (not_not_intro h0)]⟩

lemma npMean_const (c : ℚ) (m : ℕ) (hm : 1 ≤ m) :
    npMean ((List.range m).map (fun _ => c)) = c := by
  rw [npMean, List.map_const', List.length_range, List.sum_replicate,
    List.length_replicate, nsmul_eq_mul]
  exact mul_div_cancel_left₀ c (by exact_mod_cast Nat.pos_iff_ne_zero.mp hm)

lemma meanAt_one (rand : ℕ → ℕ → RandSrc) (csize : List Char → ℕ)
    (text : List Char) (trials i : ℕ)
    (hok : ∀ t, (rand i t).SampOK) (htrials : 1 ≤ trials) :
    meanAt rand csize text trials i 1 = (csize text : ℚ) := by
  rw [meanAt]
  have hk : text.length - ⌊(1 : ℚ) * (text.length : ℚ)⌋.toNat = 0 := by
    rw [one_mul, Int.floor_natCast, Int.toNat_natCast, Nat.sub_self]
  rw [hk]
  have hmap : ∀ t ∈ List.range trials,
      (csize (applyRepl (rand i t).choice 0 ((rand i t).samp text.length 0) text) : ℚ)
        = (csize text : ℚ) := by
    intro t _
    have h0 := (hok t) text.length 0 (Nat.zero_le _)
    rw [List.eq_nil_of_length_eq_zero h0.1]
    rfl
  rw [List.map_congr_left hmap]
  exact npMean_const _ trials htrials

/-- C1: for every text with `len(text) ≥ 1` and every `steps ≥ 2`,
`trials ≥ 1`, `estimate_text_complexity` returns exactly the Variant A
derived scalars computed from its measurement vector `V`:
`V0 = V[0]`, `VN = V[last]`, `N = steps-1`, `A = -(N+1)·VN + sum(V)`,
`B = -sum(V) + (N+1)·V0`, `EF = A/B` (0 if `B = 0`), `AC = VN`,
`SS = (V0-VN)/V0` (0 if `V0 = 0`), `C = EF·VN·((V0-VN)/V0)` (0 if `V0 = 0`),
`C_norm = C/V0` (0 if `V0 = 0`) — i.e. the result coincides with
`variantASpec`, the derivation written from the spec's words. -/
theorem c1_estimate_returns_variantA_scalars (rand : ℕ → ℕ → RandSrc)
    (csize : List Char → ℕ) (text : List Char) (steps trials : ℕ)
    (htext : 1 ≤ text.length) (hsteps : 2 ≤ steps) (htrials : 1 ≤ trials) :
    ∃ r, estimateTextComplexity rand csize text steps trials = some r ∧
      r = variantASpec r.V steps := by
  refine ⟨deriveScalars (mvList rand csize text trials 0 (stepFracs steps)) steps,
    estimate_eq_mvList rand csize text steps trials (Nat.le_trans one_le_two hsteps), ?_⟩
  have hV : (deriveScalars (mvList rand csize text trials 0 (stepFracs steps)) steps).V
      = mvList rand csize text trials 0 (stepFracs steps) := rfl
  rw [hV]
  exact deriveScalars_eq_variantASpec _ steps

/-- C1 witness: the theorem applied at a concrete random source, size
oracle, text of length 3, `steps = 2` and `trials = 1`. -/
theorem c1_estimate_returns_variantA_scalars_w :
    ∃ r, estimateTextComplexity constRand lenOracle txtABC 2 1 = some r ∧
      r = variantASpec r.V 2 :=
  c1_estimate_returns_variantA_scalars constRand lenOracle txtABC 2 1
    (by decide) (by decide) (by decide)

/-- C5: for every input satisfying the preconditions (`len(text) ≥ 1`,
`steps ≥ 2`, `trials ≥ 1`) the estimator never raises — it returns a
result for every random source and size oracle — and the degenerate
denominators fall back to 0: `B = 0` forces `EF = 0`, and `V0 = 0` forces
`SS = 0`, `C = 0` and `C_norm = 0` (no division fault, no infinity). -/
theorem c5_estimate_never_raises (rand : ℕ → ℕ → RandSrc)
    (csize : List Char → ℕ) (text : List Char) (steps trials : ℕ)
    (htext : 1 ≤ text.length) (hsteps : 2 ≤ steps) (htrials : 1 ≤ trials) :
    ∃ r, estimateTextComplexity rand csize text steps trials = some r ∧
      (r.B = 0 → r.EF = 0) ∧
      (r.V0 = 0 → r.SS = 0 ∧ r.C = 0 ∧ r.C_norm = 0) :=
  ⟨deriveScalars (mvList rand csize text trials 0 (stepFracs steps)) steps,
    estimate_eq_mvList rand csize text steps trials (Nat.le_trans one_le_two hsteps),
    (deriveScalars_degenerate _ steps).1, (deriveScalars_degenerate _ steps).2⟩

/-- C5 witness: the theorem applied at a concrete random source, size
oracle, text of length 3, `steps = 2` and `trials = 1`. -/
theorem c5_estimate_never_raises_w :
    ∃ r, estimateTextComplexity constRand lenOracle txtABC 2 1 = some r ∧
      (r.B = 0 → r.EF = 0) ∧
      (r.V0 = 0 → r.SS = 0 ∧ r.C = 0 ∧ r.C_norm = 0) :=
  c5_estimate_never_raises constRand lenOracle txtABC 2 1
    (by decide) (by decide) (by decide)

/-- C3: for every `steps ≥ 2` and `trials ≥ 1` the estimator returns a
measurement vector with `len(V) = steps`; the sweep fractions are
`step_fracs[i] = i/(steps-1)` for `i = 0..steps-1`, strictly ascending,
starting at 0 and ending at 1; and for `steps = 5` they are exactly
`[0, 1/4, 1/2, 3/4, 1]`. -/
theorem c3_stepFracs_shape_and_V_length (rand : ℕ → ℕ → RandSrc)
    (csize : List Char → ℕ) (text : List Char) (steps trials : ℕ)
    (hsteps : 2 ≤ steps) (htrials : 1 ≤ trials) :
    (∃ r, estimateTextComplexity rand csize text steps trials = some r ∧
        r.V.length = steps) ∧
    (∀ i, i < steps → (stepFracs steps).getD i 0 = (i : ℚ) / ((steps : ℚ) - 1)) ∧
    (stepFracs steps).Pairwise (· < ·) ∧
    (stepFracs steps).headI = 0 ∧
    (stepFracs steps).getLastD 0 = 1 ∧
    stepFracs 5 = [0, 1/4, 1/2, 3/4, 1] := by
  have hd : (0 : ℚ) < (steps : ℚ) - 1 := by
    have h2 : (2 : ℚ) ≤ (steps : ℚ) := by exact_mod_cast hsteps
    linarith
  obtain ⟨m, rfl⟩ : ∃ m, steps = m + 1 := ⟨steps - 1, by omega⟩
  have hm1 : 1 ≤ m := by omega
  refine ⟨?_, ?_, ?_, ?_, ?_, ?_⟩
  · refine ⟨deriveScalars (mvList rand csize text trials 0 (stepFracs (m + 1))) (m + 1),
      estimate_eq_mvList rand csize text (m + 1) trials (by omega), ?_⟩
    have hV : (deriveScalars (mvList rand csize text trials 0 (stepFracs (m + 1))) (m + 1)).V
        = mvList rand csize text trials 0 (stepFracs (m + 1)) := rfl
    rw [hV, mvList_length, stepFracs_length]
  · intro i hi
    rw [stepFracs, List.getD_eq_getElem?_getD, List.getElem?_map,
      List.getElem?_range hi]
    rfl
  · rw [stepFracs]
    refine List.Pairwise.map _ ?_ (List.pairwise_lt_range (m + 1))
    intro a b hab
    exact (div_lt_div_iff_of_pos_right hd).mpr (by exact_mod_cast hab)
  · rw [stepFracs, List.range_succ_eq_map]
    simp
  · rw [stepFracs, List.range_succ, List.map_append]
    simp only [List.map_cons, List.map_nil]
    rw [List.getLastD_concat]
    have hcast : ((m + 1 : ℕ) : ℚ) - 1 = (m : ℚ) := by push_cast; ring
    rw [hcast, div_self (by exact_mod_cast Nat.pos_iff_ne_zero.mp hm1)]
  · simp [stepFracs, List.range_succ]
    norm_num

/-- C3 witness: the theorem applied at a concrete random source, size
oracle, text, `steps = 5` and `trials = 1`. -/
theorem c3_stepFracs_shape_and_V_length_w :
    ∃ r, estimateTextComplexity constRand lenOracle txtABC 5 1 = some r ∧
      r.V.length = 5 :=
  (c3_stepFracs_shape_and_V_length constRand lenOracle txtABC 5 1
    (by decide) (by decide)).1

/-- C6: for every text and every `0 ≤ num_corrupt ≤ len(t)`, with a random
source honouring the `random.sample` contract, `corrupt_text` returns a
text of exactly the original length, the selection set has exactly
`num_corrupt` distinct members (no position selected twice), and every
position outside the selection set keeps its original character in its
original place. -/
theorem c6_corrupt_length_and_frame (r : RandSrc) (text : List Char) (k : ℕ)
    (hok : r.SampOK) (hk : k ≤ text.length) :
    ∃ s, corruptText r text k = some s ∧
      s.length = text.length ∧
      (r.samp text.length k).length = k ∧
      (r.samp text.length k).Nodup ∧
      (∀ i ∈ r.samp text.length k, i < text.length) ∧
      (∀ p, p ∉ r.samp text.length k → s[p]? = text[p]?) := by
  obtain ⟨hlen, hnd, hin⟩ := hok text.length k hk
  exact ⟨_, corruptText_eq_some r text k hk, applyRepl_length _ _ _ _,
    hlen, hnd, hin,
    fun p hp => applyRepl_getElem?_of_not_mem r.choice _ hp 0 text⟩

/-- C6 witness: the theorem applied at a concrete valid random source, on
the text abc with `num_corrupt = 1`. -/
theorem c6_corrupt_length_and_frame_w :
    ∃ s, corruptText rangeRand txtABC 1 = some s ∧
      s.length = txtABC.length ∧
      (rangeRand.samp txtABC.length 1).length = 1 ∧
      (rangeRand.samp txtABC.length 1).Nodup ∧
      (∀ i ∈ rangeRand.samp txtABC.length 1, i < txtABC.length) ∧
      (∀ p, p ∉ rangeRand.samp txtABC.length 1 → s[p]? = txtABC[p]?) :=
  c6_corrupt_length_and_frame rangeRand txtABC 1 rangeRand_sampOK (by decide)

/-- C7: every fraction produced by the sweep satisfies `0 ≤ frac ≤ 1`, so
the derived corruption count `n - int(frac*n)` lies in `[0, n]` (stated
over `ℤ`, where the subtraction is exact) and the internal call to
`corrupt_text` never reaches its undersized-population error branch. -/
theorem c7_internal_corrupt_count_in_range (steps n : ℕ) (frac : ℚ)
    (hmem : frac ∈ stepFracs steps) :
    0 ≤ frac ∧ frac ≤ 1 ∧
      0 ≤ ⌊frac * (n : ℚ)⌋ ∧ ⌊frac * (n : ℚ)⌋ ≤ (n : ℤ) ∧
      0 ≤ (n : ℤ) - ⌊frac * (n : ℚ)⌋ ∧ (n : ℤ) - ⌊frac * (n : ℚ)⌋ ≤ (n : ℤ) ∧
      ∀ (r : RandSrc) (text : List Char), text.length = n →
        (corruptText r text (n - ⌊frac * (n : ℚ)⌋.toNat)).isSome = true := by
  have h0 : 0 ≤ frac := stepFracs_mem_nonneg hmem
  have h1 : frac ≤ 1 := stepFracs_mem_le_one hmem
  have hf0 : 0 ≤ ⌊frac * (n : ℚ)⌋ :=
    Int.floor_nonneg.mpr (mul_nonneg h0 (Nat.cast_nonneg n))
  have hfn : ⌊frac * (n : ℚ)⌋ ≤ (n : ℤ) := by
    have hle : frac * (n : ℚ) ≤ (n : ℚ) :=
      mul_le_of_le_one_left (Nat.cast_nonneg n) h1
    calc ⌊frac * (n : ℚ)⌋ ≤ ⌊(n : ℚ)⌋ := Int.floor_le_floor hle
    _ = (n : ℤ) := Int.floor_natCast n
  refine ⟨h0, h1, hf0, hfn, by omega, by omega, ?_⟩
  intro r text htl
  subst htl
  rw [corruptText, if_pos (Nat.sub_le _ _)]
  rfl

/-- C7 witness: the theorem applied at the middle fraction 1/2 of a
3-step sweep, with a concrete source and a length-1 text. -/
theorem c7_internal_corrupt_count_in_range_w :
    0 ≤ (1/2 : ℚ) ∧
    (corruptText rangeRand [Char.ofNat 97]
        (1 - ⌊(1/2 : ℚ) * ((1 : ℕ) : ℚ)⌋.toNat)).isSome = true := by
  have hmem : (1/2 : ℚ) ∈ stepFracs 3 := by
    have h3 : stepFracs 3 = [0, 1/2, 1] := by
      simp [stepFracs, List.range_succ]
      norm_num
    rw [h3]
    simp
  have h := c7_internal_corrupt_count_in_range 3 1 (1/2) hmem
  exact ⟨h.1, h.2.2.2.2.2.2 rangeRand [Char.ofNat 97] rfl⟩

/-- C8: with a random source honouring the `random.sample` contract
(`random.sample(range(n), 0)` returns the empty selection), corrupting
zero characters returns the text unchanged — including the empty text. -/
theorem c8_corrupt_zero_is_identity (r : RandSrc) (text : List Char)
    (hok : r.SampOK) :
    corruptText r text 0 = some text := by
  obtain ⟨hlen, -, -⟩ := hok text.length 0 (Nat.zero_le _)
  rw [corruptText, if_pos (Nat.zero_le _), List.eq_nil_of_length_eq_zero hlen]
  rfl

/-- C8 witness: the theorem applied to the concrete text abc and to the
empty text. -/
theorem c8_corrupt_zero_is_identity_w :
    corruptText rangeRand txtABC 0 = some txtABC ∧
    corruptText rangeRand [] 0 = some [] :=
  ⟨c8_corrupt_zero_is_identity rangeRand txtABC rangeRand_sampOK,
    c8_corrupt_zero_is_identity rangeRand [] rangeRand_sampOK⟩

/-- C2 counterexample: the replacement population of `corrupt_text` is
Python's `string.printable`, which has 100 characters, not 94, and
contains the newline character (code 10), which is not a letter, digit,
punctuation character or space; a random source satisfying the
`random.choice(string.printable)` contract can therefore write a newline
into the text, as shown on the length-1 text at `num_corrupt = 1`. -/
theorem c2_counterexample :
    stringPrintable.length = 100 ∧
    Char.ofNat 10 ∈ stringPrintable ∧
    newlineRand.ChoiceOK ∧
    corruptText newlineRand [Char.ofNat 97] 1 = some [Char.ofNat 10] :=
  ⟨by decide, by decide, newlineRand_choiceOK, by decide⟩

/-- C2 amended: each selected position's character is replaced by a
character drawn from Python's `string.printable` — the 100-character set
of digits, letters, punctuation and the six whitespace characters (space,
tab, newline, carriage return, vertical tab, form feed) — and the
replacement may coincide with the original character. -/
theorem c2_amended_replacement_in_string_printable (r : RandSrc)
    (text : List Char) (k : ℕ) (hch : r.ChoiceOK) (hk : k ≤ text.length) :
    ∃ s, corruptText r text k = some s ∧
      ∀ p ∈ r.samp text.length k, p < text.length →
        ∃ c ∈ stringPrintable, s[p]? = some c := by
  refine ⟨_, corruptText_eq_some r text k hk, ?_⟩
  intro p hp hplen
  obtain ⟨m, hm⟩ := applyRepl_getElem?_of_mem r.choice _ hp 0 text hplen
  exact ⟨r.choice m, hch m, hm⟩

/-- C2 amended witness: the theorem applied to the length-1 text a at
`num_corrupt = 1` with the source that always draws the letter a: the
replacement lands in `string.printable` and coincides with the original
character. -/
theorem c2_amended_replacement_in_string_printable_w :
    (∃ s, corruptText rangeRand [Char.ofNat 97] 1 = some s ∧
      ∀ p ∈ rangeRand.samp 1 1, p < 1 →
        ∃ c ∈ stringPrintable, s[p]? = some c) ∧
    corruptText rangeRand [Char.ofNat 97] 1 = some [Char.ofNat 97] :=
  ⟨c2_amended_replacement_in_string_printable rangeRand [Char.ofNat 97] 1
      rangeRand_choiceOK (by decide),
    by decide⟩

/-- C4 counterexample: `estimate_text_complexity` does not reject
`steps < 2`: at `steps = 1` (with `trials = 1`, a length-3 text, a
concrete random source and size oracle) it returns a result instead of
failing with an InvalidArgument-kind error. -/
theorem c4_counterexample :
    (estimateTextComplexity constRand lenOracle txtABC 1 1).isSome = true := by
  rw [estimate_eq_mvList constRand lenOracle txtABC 1 1 (le_refl 1)]
  rfl

/-- C4 amended: `corrupt_text` does fail immediately (a `ValueError` from
`random.sample`, surfaced to the caller, no retry) exactly when the
corruption count is outside `[0, n]`; but `estimate_text_complexity`
performs no validation of `steps` or `trials`: `steps = 1` returns a
degenerate result without error, `steps = 0` fails with an
`IndexError` (from `V[0]` on an empty vector), not an
InvalidArgument-kind check, and `trials = 0` is likewise not rejected
(the call at `steps = 2, trials = 0` also returns a result). -/
theorem c4_amended_error_surfacing :
    (∀ (r : RandSrc) (text : List Char) (k : ℕ),
        corruptText r text k = none ↔ text.length < k) ∧
    (estimateTextComplexity constRand lenOracle txtABC 1 1).isSome = true ∧
    estimateTextComplexity constRand lenOracle txtABC 0 1 = none ∧
    (estimateTextComplexity constRand lenOracle txtABC 2 0).isSome = true := by
  refine ⟨?_, ?_, by decide, ?_⟩
  · intro r text k
    constructor
    · intro hnone
      by_contra hle
      rw [corruptText, if_pos (Nat.le_of_not_lt hle)] at hnone
      exact Option.noConfusion hnone
    · intro hlt
      rw [corruptText, if_neg (Nat.not_le_of_lt hlt)]
  · rw [estimate_eq_mvList constRand lenOracle txtABC 1 1 (le_refl 1)]
    rfl
  · rw [estimate_eq_mvList constRand lenOracle txtABC 2 0 (by omega)]
    rfl

/-- C10: the last entry of the measurement vector is deterministic: the
final sweep fraction is exactly 1, the corruption count there is 0, every
trial compresses the unmodified text, and `V[last]` (and hence `VN`)
equals the oracle size of the original text — for every random source
honouring the `random.sample` contract, independent of its draws. -/
theorem c10_last_measurement_deterministic (rand : ℕ → ℕ → RandSrc)
    (csize : List Char → ℕ) (text : List Char) (steps trials : ℕ)
    (hok : ∀ i t, (rand i t).SampOK)
    (htext : 1 ≤ text.length) (hsteps : 2 ≤ steps) (htrials : 1 ≤ trials) :
    ∃ r, estimateTextComplexity rand csize text steps trials = some r ∧
      r.VN = (csize text : ℚ) ∧ r.V.getLastD 0 = (csize text : ℚ) := by
  obtain ⟨m, rfl⟩ : ∃ m, steps = m + 1 := ⟨steps - 1, by omega⟩
  have hm1 : 1 ≤ m := by omega
  have hlast : (mvList rand csize text trials 0 (stepFracs (m + 1))).getLastD 0
      = (csize text : ℚ) := by
    rw [stepFracs, List.range_succ, List.map_append]
    simp only [List.map_cons, List.map_nil]
    rw [mvList_concat, List.getLastD_concat, List.length_map, List.length_range,
      Nat.zero_add]
    have hcast : ((m + 1 : ℕ) : ℚ) - 1 = (m : ℚ) := by push_cast; ring
    rw [hcast, div_self (by exact_mod_cast Nat.pos_iff_ne_zero.mp hm1)]
    exact meanAt_one rand csize text trials m (fun t => hok m t) htrials
  refine ⟨deriveScalars (mvList rand csize text trials 0 (stepFracs (m + 1))) (m + 1),
    estimate_eq_mvList rand csize text (m + 1) trials (by omega), ?_, ?_⟩
  · show (mvList rand csize text trials 0 (stepFracs (m + 1))).getLastD 0
        = (csize text : ℚ)
    exact hlast
  · exact hlast

/-- C10 witness: the theorem applied at a concrete valid random source,
the length oracle, the text abc, `steps = 2`, `trials = 1`: the last mean
equals the oracle size 3 of the original text. -/
theorem c10_last_measurement_deterministic_w :
    ∃ r, estimateTextComplexity constRand lenOracle txtABC 2 1 = some r ∧
      r.VN = ((lenOracle txtABC : ℕ) : ℚ) ∧
      r.V.getLastD 0 = ((lenOracle txtABC : ℕ) : ℚ) :=
  c10_last_measurement_deterministic constRand lenOracle txtABC 2 1
    constRand_sampOK (by decide) (by decide) (by decide)

